import Mathlib

/-!
Verification of the research-paper-assistant backend
(`src/research-paper-assistant/backend/server.js`).

The JavaScript code is shallowly embedded: strings are lists of characters
(`Str`), JS string operations (`split`, `trim`, `toLowerCase`, `includes`,
regex year matching) are executable Lean functions mirroring the source, and
each HTTP handler is a pure function from its request-body fields and a
provider oracle to the HTTP response together with the list of outbound
provider calls it performed.
-/

/-- JS strings are modelled as lists of characters. -/
abbrev Str := List Char

/-- Convert a Lean string literal to the model type. -/
def str (s : String) : Str := s.data

/-- Whitespace characters removed by JS `String.prototype.trim`. -/
def isWS (c : Char) : Bool := c = ' ' || c = '\t' || c = '\n' || c = '\r'

/-- Drop whitespace from the end of a string (JS `trimEnd`). -/
def dropEndWS (s : Str) : Str := (s.reverse.dropWhile isWS).reverse

/-- JS `String.prototype.trim`: drop whitespace from both ends. -/
def trim (s : Str) : Str := dropEndWS (s.dropWhile isWS)

/-- JS `String.prototype.toLowerCase` (ASCII, which is all the code uses). -/
def lower (s : Str) : Str := s.map Char.toLower

/-- JS `a.includes b`: `b` occurs as a contiguous substring of `a`. -/
def containsSub (hay sub : Str) : Bool :=
  match hay with
  | [] => sub.isEmpty
  | _ :: rest => sub.isPrefixOf hay || containsSub rest sub

/-- First index of `s` at which the test on the remaining suffix succeeds
(used to state JS `indexOf`-style positions). -/
def firstIdxWhere (p : Str → Bool) : Str → Option Nat
  | [] => none
  | c :: rest => if p (c :: rest) then some 0 else (firstIdxWhere p rest).map (· + 1)

/-- The suffix starts with the given separator. -/
def begins (sep : Str) (s : Str) : Bool := sep.isPrefixOf s

/-- JS `s.split(sep)` for a single-character separator: split at every
occurrence of `c`, left to right. -/
def jsSplit1 (c : Char) : Str → List Str
  | [] => [[]]
  | b :: rest =>
    if b = c then [] :: jsSplit1 c rest
    else
      match jsSplit1 c rest with
      | [] => [[b]]
      | h :: t => (b :: h) :: t

/-- JS `s.split(sep)` for a two-character separator `[c1, c2]`: split at
every leftmost, non-overlapping occurrence. -/
def jsSplit2 (c1 c2 : Char) : Str → List Str
  | [] => [[]]
  | [b] => [[b]]
  | b :: b' :: rest =>
    if b = c1 ∧ b' = c2 then [] :: jsSplit2 c1 c2 rest
    else
      match jsSplit2 c1 c2 (b' :: rest) with
      | [] => [[b]]
      | h :: t => (b :: h) :: t

/-- JS `lines.join(sep)`. -/
def joinWith (sep : Str) (parts : List Str) : Str := List.intercalate sep parts

/-- The fixed list of canonical section titles (`PAPER_SECTIONS` in the code). -/
def PAPER_SECTIONS : List Str :=
  [str "Abstract", str "Introduction", str "Literature Review", str "Methodology",
   str "Results", str "Discussion", str "Conclusion", str "References"]

/-- The heading heuristic tested for one candidate title:
`line.toLowerCase().includes(title.toLowerCase()) && line.length < title.length + 10`. -/
def headingTest (line : Str) (title : Str) : Bool :=
  containsSub (lower line) (lower title) && decide (line.length < title.length + 10)

/-- `PAPER_SECTIONS.find(title => ...)`: the first canonical title whose
heading heuristic accepts the line, if any. -/
def findSection (line : Str) : Option Str :=
  PAPER_SECTIONS.find? (headingTest line)

/-- JS object assignment `sections[k] = v`: overwrite in place if the key is
present, append otherwise. -/
def setKV : List (Str × Str) → Str → Str → List (Str × Str)
  | [], k, v => [(k, v)]
  | (k', v') :: rest, k, v =>
    if k' = k then (k, v) :: rest else (k', v') :: setKV rest k v

/-- JS object read `sections[k]` as an option. -/
def lookupKV : List (Str × Str) → Str → Option Str
  | [], _ => none
  | (k', v) :: rest, k => if k' = k then some v else lookupKV rest k

/-- Number of entries of the mapping carrying the given key. -/
def countKey (m : List (Str × Str)) (k : Str) : Nat :=
  (m.filter (fun p => p.1 = k)).length

/-- Mutable state of the segmentation loop in `/generate-paper`:
`sections`, `currentSection` (empty string = none, matching JS truthiness),
`currentContent`. -/
structure SegState where
  sections : List (Str × Str)
  currentSection : Str
  currentContent : List Str
deriving DecidableEq, Repr

/-- One iteration of `content.split('\n').forEach(line => ...)`. -/
def stepLine (st : SegState) (line : Str) : SegState :=
  match findSection line with
  | some t =>
    { sections :=
        if st.currentSection = [] then st.sections
        else setKV st.sections st.currentSection (trim (joinWith (str "\n") st.currentContent)),
      currentSection := t,
      currentContent := [] }
  | none =>
    if st.currentSection = [] then st
    else { st with currentContent := st.currentContent ++ [line] }

/-- Run the loop over all lines. -/
def runLines (lines : List Str) (st : SegState) : SegState :=
  lines.foldl stepLine st

/-- The final flush after the loop (`if (currentSection) sections[...] = ...`). -/
def finalize (st : SegState) : List (Str × Str) :=
  if st.currentSection = [] then st.sections
  else setKV st.sections st.currentSection (trim (joinWith (str "\n") st.currentContent))

/-- Segment a list of lines into the sections mapping. -/
def segLines (lines : List Str) : List (Str × Str) :=
  finalize (runLines lines ⟨[], [], []⟩)

/-- The Paper Segmenter: split the generated text on newlines and run the
segmentation loop (the body of `/generate-paper` after the provider call). -/
def segmentPaper (content : Str) : List (Str × Str) :=
  segLines (jsSplit1 '\n' content)

/-! ### Citation Extractor (`/fetch-citations` mapping) -/

/-- Does the regex `\((\d{4})\)` match at the start of this suffix?  If so,
return the captured four digits. -/
def yearAt : Str → Option Str
  | '(' :: d1 :: d2 :: d3 :: d4 :: ')' :: _ =>
    if d1.isDigit && d2.isDigit && d3.isDigit && d4.isDigit then
      some [d1, d2, d3, d4]
    else none
  | _ => none

/-- `citation.match(/\((\d{4})\)/)`: the captured digits of the leftmost
match, if any. -/
def findYear : Str → Option Str
  | [] => none
  | c :: rest =>
    match yearAt (c :: rest) with
    | some y => some y
    | none => findYear rest

/-- `yearMatch ? yearMatch[1] : ''`. -/
def yearOf (line : Str) : Str := (findYear line).getD []

/-- `citation.split('(')[0].trim()`. -/
def authorsOf (line : Str) : Str := trim ((jsSplit1 '(' line).headD [])

/-- `citation.split(').')[1]?.split('.')[0]?.trim() || ''`. -/
def titleOf (line : Str) : Str :=
  match jsSplit2 ')' '.' line with
  | _ :: seg :: _ => trim ((jsSplit1 '.' seg).headD [])
  | _ => []

/-- One extracted citation record. -/
structure Citation where
  text : Str
  type : Str
  year : Str
  authors : Str
  title : Str
deriving DecidableEq, Repr

/-- The per-line mapping of the `/fetch-citations` handler. -/
def parseCitation (line : Str) : Citation :=
  { text := line, type := str "article",
    year := yearOf line, authors := authorsOf line, title := titleOf line }

/-- The Citation Extractor: split the provider text on newlines, keep
non-blank lines (`filter(citation => citation.trim())`), and parse each. -/
def extractCitations (content : Str) : List Citation :=
  ((jsSplit1 '\n' content).filter (fun l => !(trim l).isEmpty)).map parseCitation

/-! ### Request handlers -/

/-- Chat roles used when talking to the Completion Gateway. -/
inductive Role where
  | system
  | user
deriving DecidableEq, Repr

/-- One message of a provider prompt. -/
structure ChatMessage where
  role : Role
  content : Str
deriving DecidableEq, Repr

/-- The provider, abstracted as an oracle from the message list of one
`gemini.chat.completions.create` call to the returned completion text. -/
def Provider := List ChatMessage → Str

/-- Bodies of the JSON responses the handlers can produce. -/
inductive RespBody where
  | errorBody (msg : Str)
  | paperBody (sections : List (Str × Str))
  | citationsBody (citations : List Citation)
  | formattedBody (text : Str)
  | improveBody (improved : Str) (changes : List Str)
deriving DecidableEq, Repr

/-- An HTTP response: status code plus JSON body. -/
structure HttpResp where
  status : Nat
  body : RespBody
deriving DecidableEq, Repr

/-- The `changes` field of an improve-writing response, when present. -/
def changesOf : RespBody → Option (List Str)
  | RespBody.improveBody _ cs => some cs
  | _ => none

/-- JS truthiness of an optional string field of the request body:
`undefined` and `''` are falsy. -/
def jsTruthy : Option Str → Bool
  | none => false
  | some s => !s.isEmpty

/-- JS `a || b` on optional string fields. -/
def jsOr (a b : Option Str) : Option Str := if jsTruthy a then a else b

/-- The fixed system prompt of `/generate-paper`. -/
def genPaperSystemPrompt : Str :=
  str "You are an expert academic writer. Generate a complete research paper with the following sections: Abstract, Introduction, Literature Review, Methodology, Results, Discussion, Conclusion, and References. Use formal academic language and maintain coherence between sections."

/-- The `POST /generate-paper` handler: request-body `topic` plus the
provider oracle, returning the HTTP response and the list of outbound
provider calls performed. -/
def generatePaper (topic : Option Str) (oracle : Provider) :
    HttpResp × List (List ChatMessage) :=
  if !jsTruthy topic then
    (⟨400, RespBody.errorBody (str "Topic is required")⟩, [])
  else
    let msgs : List ChatMessage :=
      [⟨Role.system, genPaperSystemPrompt⟩,
       ⟨Role.user, str "Generate a complete research paper about: " ++ topic.getD [] ++
          str ". Include all sections."⟩]
    let content := oracle msgs
    (⟨200, RespBody.paperBody (segmentPaper content)⟩, [msgs])

/-- The optional `context` object of `/api/ai/improve-writing`. -/
structure ImproveCtx where
  sectionTitle : Option Str
  paperTitle : Option Str
  abstract : Option Str
deriving DecidableEq, Repr

/-- `const { sectionTitle, paperTitle, abstract } = context || {}`. -/
def ctxFields (context : Option ImproveCtx) : Option Str × Option Str × Option Str :=
  match context with
  | none => (none, none, none)
  | some c => (c.sectionTitle, c.paperTitle, c.abstract)

/-- The template-literal system prompt of `/api/ai/improve-writing`. -/
def improveSystemPrompt (context : Option ImproveCtx) : Str :=
  let (sectionTitle, paperTitle, abstract) := ctxFields context
  str "You are an expert academic writer working on " ++
    (if jsTruthy paperTitle then
        str "a paper titled \"" ++ paperTitle.getD [] ++ str "\""
      else str "a research paper") ++
  str ".\n" ++
    (if jsTruthy abstract then
        str "The paper's abstract: \"" ++ abstract.getD [] ++ str "\""
      else []) ++
  str "\n" ++
    (if jsTruthy sectionTitle then
        str "Currently working on: " ++ sectionTitle.getD []
      else [])

/-- The user message of `/api/ai/improve-writing`. -/
def improveUserMsg (content : Str) : Str :=
  str "Improve this academic writing:\n\n" ++ content

/-- The `POST /api/ai/improve-writing` handler: request-body fields plus the
provider oracle, returning the HTTP response and the outbound calls. -/
def improveWriting (pr text aspect : Option Str) (context : Option ImproveCtx)
    (oracle : Provider) : HttpResp × List (List ChatMessage) :=
  let contentToImprove := jsOr pr text
  if !jsTruthy contentToImprove || !jsTruthy aspect then
    (⟨400, RespBody.errorBody (str "Content to improve and writing aspect are required")⟩, [])
  else
    let msgs : List ChatMessage :=
      [⟨Role.system, improveSystemPrompt context⟩,
       ⟨Role.user, improveUserMsg (contentToImprove.getD [])⟩]
    let improvedText := oracle msgs
    (⟨200, RespBody.improveBody improvedText [aspect.getD []]⟩, [msgs])

/-! ### Spec-side definitions (from the spec's words, for comparison) -/

/-- Modelled from the spec's words for the Citation Extractor's `year`
field: the digits of the first parenthesized 4-digit sequence, located by
its leftmost starting position; empty string if none. -/
def claimYear (line : Str) : Str :=
  match firstIdxWhere (fun s => (yearAt s).isSome) line with
  | none => []
  | some i => ((line.drop i).drop 1).take 4

/-- Modelled from the spec's words for the `authors` field: the substring
before the first `(` character, trimmed; the whole trimmed line when no `(`
is present. -/
def claimAuthors (line : Str) : Str :=
  match firstIdxWhere (begins ['(']) line with
  | none => trim line
  | some i => trim (line.take i)

/-- Modelled from the claim's words for the `title` field, exactly as
stated: the substring after the first `).` and before the next `.`, trimmed;
empty string if either delimiter is absent. -/
def claimTitle (line : Str) : Str :=
  match firstIdxWhere (begins [')', '.']) line with
  | none => []
  | some i =>
    let after := line.drop (i + 2)
    match firstIdxWhere (begins ['.']) after with
    | none => []
    | some j => trim (after.take j)

/-- The `title` rule amended to the code's behavior: the segment of the line
strictly between the first occurrence of `).` and the next `).` occurrence
(to the end of the line when there is no second occurrence), truncated
before the first `.` inside that segment (the whole segment when it has
none), trimmed; empty only when `).` is absent. -/
def claimTitleAmended (line : Str) : Str :=
  match firstIdxWhere (begins [')', '.']) line with
  | none => []
  | some i =>
    let after := line.drop (i + 2)
    let seg :=
      match firstIdxWhere (begins [')', '.']) after with
      | none => after
      | some j => after.take j
    let pre :=
      match firstIdxWhere (begins ['.']) seg with
      | none => seg
      | some j2 => seg.take j2
    trim pre

/-! ### Helper lemmas -/

/-- JS `includes` agrees with contiguous-substring containment. -/
theorem containsSub_iff (hay sub : Str) : containsSub hay sub = true ↔ sub <:+: hay := by
  induction hay with
  | nil =>
    simp only [containsSub, List.isEmpty_iff]
    exact ⟨fun h => h ▸ List.infix_rfl, fun h => List.eq_nil_of_infix_nil h⟩
  | cons c rest ih =>
    simp only [containsSub, Bool.or_eq_true, List.isPrefixOf_iff_prefix, ih,
      List.infix_cons_iff]

/-- A single-character split never returns the empty list. -/
theorem jsSplit1_ne_nil (c : Char) (s : Str) : jsSplit1 c s ≠ [] := by
  cases s with
  | nil => simp [jsSplit1]
  | cons b rest =>
    unfold jsSplit1
    by_cases hb : b = c
    · rw [if_pos hb]; simp
    · rw [if_neg hb]
      cases hsp : jsSplit1 c rest with
      | nil => simp
      | cons h0 t0 => simp

/-- A two-character split never returns the empty list. -/
theorem jsSplit2_ne_nil (c1 c2 : Char) (s : Str) : jsSplit2 c1 c2 s ≠ [] := by
  cases s with
  | nil => simp [jsSplit2]
  | cons b rest =>
    cases rest with
    | nil => simp [jsSplit2]
    | cons b' rest' =>
      unfold jsSplit2
      by_cases hbc : b = c1 ∧ b' = c2
      · rw [if_pos hbc]; simp
      · rw [if_neg hbc]
        cases hsp : jsSplit2 c1 c2 (b' :: rest') with
        | nil => simp
        | cons h0 t0 => simp

/-- Step equation for `firstIdxWhere` on a non-empty string. -/
theorem firstIdxWhere_cons (p : Str → Bool) (c : Char) (rest : Str) :
    firstIdxWhere p (c :: rest) =
      if p (c :: rest) then some 0 else (firstIdxWhere p rest).map (· + 1) := rfl

/-- Step equation for `jsSplit1` on a non-empty string. -/
theorem jsSplit1_cons (c b : Char) (rest : Str) :
    jsSplit1 c (b :: rest) =
      if b = c then [] :: jsSplit1 c rest
      else
        match jsSplit1 c rest with
        | [] => [[b]]
        | h :: t => (b :: h) :: t := rfl

/-- Step equation for `jsSplit2` on a string of length one. -/
theorem jsSplit2_single (c1 c2 b : Char) : jsSplit2 c1 c2 [b] = [[b]] := rfl

/-- Step equation for `jsSplit2` on a string of length at least two. -/
theorem jsSplit2_cons2 (c1 c2 b b' : Char) (rest : Str) :
    jsSplit2 c1 c2 (b :: b' :: rest) =
      if b = c1 ∧ b' = c2 then [] :: jsSplit2 c1 c2 rest
      else
        match jsSplit2 c1 c2 (b' :: rest) with
        | [] => [[b]]
        | h :: t => (b :: h) :: t := rfl

/-- The first fragment of a single-character split is the text before the
first occurrence of the separator (the whole string when it is absent). -/
theorem jsSplit1_head (c : Char) (s : Str) :
    (jsSplit1 c s).headD [] =
      match firstIdxWhere (begins [c]) s with
      | none => s
      | some i => s.take i := by
  induction s with
  | nil => rfl
  | cons b rest ih =>
    by_cases hb : b = c
    · have hp : begins [c] (b :: rest) = true := by
        subst hb; simp [begins, List.isPrefixOf]
      rw [jsSplit1_cons, firstIdxWhere_cons, if_pos hb, if_pos hp]
      rfl
    · have hp : ¬ begins [c] (b :: rest) = true := by
        simp only [begins, List.isPrefixOf, List.isPrefixOf_nil_left, Bool.and_true]
        simp only [beq_iff_eq]
        exact fun h => hb h.symm
      cases hsp : jsSplit1 c rest with
      | nil => exact absurd hsp (jsSplit1_ne_nil c rest)
      | cons h0 t0 =>
        rw [hsp] at ih
        rw [jsSplit1_cons, firstIdxWhere_cons, if_neg hb, if_neg hp, hsp]
        cases hrest : firstIdxWhere (begins [c]) rest with
        | none => rw [hrest] at ih; simpa using ih
        | some i => rw [hrest] at ih; simpa using ih

/-- The heading-separator test on a two-character separator. -/
theorem begins_two_iff (c1 c2 b b' : Char) (rest : Str) :
    begins [c1, c2] (b :: b' :: rest) = true ↔ (b = c1 ∧ b' = c2) := by
  simp only [begins, List.isPrefixOf, List.isPrefixOf_nil_left, Bool.and_true,
    Bool.and_eq_true, beq_iff_eq]
  exact ⟨fun ⟨h1, h2⟩ => ⟨h1.symm, h2.symm⟩, fun ⟨h1, h2⟩ => ⟨h1.symm, h2.symm⟩⟩

/-- A two-character separator never begins a single-character string. -/
theorem begins_two_single (c1 c2 b : Char) : begins [c1, c2] [b] = false := by
  simp [begins, List.isPrefixOf]

/-- The first fragment of a two-character split is the text before the
first occurrence of the separator (the whole string when it is absent). -/
theorem jsSplit2_head (c1 c2 : Char) (s : Str) :
    (jsSplit2 c1 c2 s).headD [] =
      match firstIdxWhere (begins [c1, c2]) s with
      | none => s
      | some i => s.take i := by
  induction s with
  | nil => rfl
  | cons b rest ih =>
    cases rest with
    | nil =>
      rw [jsSplit2_single, firstIdxWhere_cons,
        if_neg (by rw [begins_two_single]; exact Bool.false_ne_true)]
      rfl
    | cons b' rest' =>
      by_cases hbc : b = c1 ∧ b' = c2
      · rw [jsSplit2_cons2, firstIdxWhere_cons, if_pos hbc,
          if_pos ((begins_two_iff c1 c2 b b' rest').mpr hbc)]
        rfl
      · cases hsp : jsSplit2 c1 c2 (b' :: rest') with
        | nil => exact absurd hsp (jsSplit2_ne_nil c1 c2 (b' :: rest'))
        | cons h0 t0 =>
          rw [hsp] at ih
          rw [jsSplit2_cons2, firstIdxWhere_cons, if_neg hbc,
            if_neg (fun h => hbc ((begins_two_iff c1 c2 b b' rest').mp h)), hsp]
          cases hrest : firstIdxWhere (begins [c1, c2]) (b' :: rest') with
          | none => rw [hrest] at ih; simpa using ih
          | some i => rw [hrest] at ih; simpa using ih

/-- The second fragment of a two-character split, described through the
first occurrence of the separator: it is the first fragment of the split of
the remainder of the string after that occurrence. -/
theorem jsSplit2_second (c1 c2 : Char) (s : Str) :
    (jsSplit2 c1 c2 s)[1]? =
      match firstIdxWhere (begins [c1, c2]) s with
      | none => none
      | some i => some ((jsSplit2 c1 c2 (s.drop (i + 2))).headD []) := by
  induction s with
  | nil => rfl
  | cons b rest ih =>
    cases rest with
    | nil =>
      rw [jsSplit2_single, firstIdxWhere_cons,
        if_neg (by rw [begins_two_single]; exact Bool.false_ne_true)]
      rfl
    | cons b' rest' =>
      by_cases hbc : b = c1 ∧ b' = c2
      · rw [jsSplit2_cons2, firstIdxWhere_cons, if_pos hbc,
          if_pos ((begins_two_iff c1 c2 b b' rest').mpr hbc)]
        cases hsp : jsSplit2 c1 c2 rest' with
        | nil => exact absurd hsp (jsSplit2_ne_nil c1 c2 rest')
        | cons h0 t0 => simp [hsp]
      · cases hsp : jsSplit2 c1 c2 (b' :: rest') with
        | nil => exact absurd hsp (jsSplit2_ne_nil c1 c2 (b' :: rest'))
        | cons h0 t0 =>
          rw [hsp] at ih
          rw [jsSplit2_cons2, firstIdxWhere_cons, if_neg hbc,
            if_neg (fun h => hbc ((begins_two_iff c1 c2 b b' rest').mp h)), hsp]
          cases hrest : firstIdxWhere (begins [c1, c2]) (b' :: rest') with
          | none => rw [hrest] at ih; simpa using ih
          | some i =>
            rw [hrest] at ih
            have hd : List.drop (i + 1 + 2) (b :: b' :: rest') =
                List.drop (i + 2) (b' :: rest') := by
              have h3 : i + 1 + 2 = (i + 2) + 1 := by omega
              rw [h3, List.drop_succ_cons]
            simpa [hd] using ih

/-- When the year pattern matches a suffix, the digits captured are the
four characters following the opening parenthesis. -/
theorem yearAt_shape {s y : Str} (h : yearAt s = some y) : y = (s.drop 1).take 4 := by
  unfold yearAt at h
  split at h
  · split at h
    · simp only [Option.some.injEq] at h
      subst h
      rfl
    · exact absurd h (by simp)
  · exact absurd h (by simp)

/-- Step equation for the regex scan on a non-empty string. -/
theorem findYear_cons (c : Char) (rest : Str) :
    findYear (c :: rest) =
      match yearAt (c :: rest) with
      | some y => some y
      | none => findYear rest := rfl

/-- The regex scan finds the leftmost position where the parenthesized
4-digit pattern matches and captures the digits there. -/
theorem findYear_eq (s : Str) :
    findYear s = (firstIdxWhere (fun u => (yearAt u).isSome) s).map
      (fun i => ((s.drop i).drop 1).take 4) := by
  induction s with
  | nil => rfl
  | cons c rest ih =>
    rcases hy : yearAt (c :: rest) with _ | y
    · rw [findYear_cons, hy, firstIdxWhere_cons, if_neg (by simp [hy]), ih]
      cases hrest : firstIdxWhere (fun u => (yearAt u).isSome) rest with
      | none => rfl
      | some i => simp
    · rw [findYear_cons, hy, firstIdxWhere_cons, if_pos (by simp [hy])]
      simp [yearAt_shape hy]

/-- The code's `year` field agrees with the positional description: digits
of the leftmost parenthesized 4-digit group, empty if none. -/
theorem yearOf_eq (line : Str) : yearOf line = claimYear line := by
  unfold yearOf claimYear
  rw [findYear_eq]
  cases firstIdxWhere (fun u => (yearAt u).isSome) line <;> rfl

/-- The code's `authors` field agrees with the spec's description: text
before the first parenthesis, trimmed (whole trimmed line if none). -/
theorem authorsOf_eq (line : Str) : authorsOf line = claimAuthors line := by
  unfold authorsOf claimAuthors
  rw [jsSplit1_head]
  cases firstIdxWhere (begins ['(']) line <;> rfl

/-- The code's `title` field agrees with the amended description built from
occurrence positions of the two delimiters. -/
theorem titleOf_eq (line : Str) : titleOf line = claimTitleAmended line := by
  unfold titleOf claimTitleAmended
  have h1 := jsSplit2_second ')' '.' line
  cases hidx : firstIdxWhere (begins [')', '.']) line with
  | none =>
    rw [hidx] at h1
    cases hsp : jsSplit2 ')' '.' line with
    | nil => exact absurd hsp (jsSplit2_ne_nil ')' '.' line)
    | cons h0 t0 =>
      rw [hsp] at h1
      cases t0 with
      | nil => rfl
      | cons seg t1 => simp at h1
  | some i =>
    rw [hidx] at h1
    cases hsp : jsSplit2 ')' '.' line with
    | nil => exact absurd hsp (jsSplit2_ne_nil ')' '.' line)
    | cons h0 t0 =>
      rw [hsp] at h1
      cases t0 with
      | nil => simp at h1
      | cons seg t1 =>
        simp only [List.getElem?_cons_succ, List.getElem?_cons_zero,
          Option.some.injEq] at h1
        show trim ((jsSplit1 '.' seg).headD []) = _
        rw [jsSplit1_head, h1, jsSplit2_head]

/-- `find?` returns the head of the filtered list. -/
theorem find?_eq_head?_filter {α : Type} (p : α → Bool) (l : List α) :
    l.find? p = (l.filter p).head? := by
  induction l with
  | nil => rfl
  | cons a l ih =>
    cases hpa : p a with
    | true =>
      rw [List.find?_cons_of_pos _ hpa, List.filter_cons_of_pos hpa, List.head?_cons]
    | false =>
      rw [List.find?_cons_of_neg _ (by simp [hpa]),
        List.filter_cons_of_neg (by simp [hpa]), ih]

/-- The head of a `dropWhile` result never satisfies the dropped test. -/
theorem head?_dropWhile_not {p : Char → Bool} :
    ∀ {s : Str} {c : Char}, (s.dropWhile p).head? = some c → p c = false := by
  intro s
  induction s with
  | nil => intro c h; simp [List.dropWhile] at h
  | cons a rest ih =>
    intro c h
    by_cases hpa : p a = true
    · rw [List.dropWhile_cons_of_pos hpa] at h
      exact ih h
    · rw [List.dropWhile_cons_of_neg hpa] at h
      simp only [List.head?_cons, Option.some.injEq] at h
      subst h
      exact Bool.eq_false_iff.mpr hpa

/-- A list whose head fails the test is unchanged by `dropWhile`. -/
theorem dropWhile_eq_self_of_head {p : Char → Bool} {s : Str}
    (h : ∀ c, s.head? = some c → p c = false) : s.dropWhile p = s := by
  cases s with
  | nil => rfl
  | cons a rest =>
    have : p a = false := h a rfl
    rw [List.dropWhile_cons_of_neg (by simp [this])]

/-- The first character of a trimmed string is never whitespace. -/
theorem head?_trim_not_ws {s : Str} {c : Char} (h : (trim s).head? = some c) :
    isWS c = false := by
  rw [trim, dropEndWS] at h
  have hpre : ((s.dropWhile isWS).reverse.dropWhile isWS).reverse <+: s.dropWhile isWS := by
    have := List.reverse_prefix.mpr
      (List.dropWhile_suffix isWS :
        (s.dropWhile isWS).reverse.dropWhile isWS <:+ (s.dropWhile isWS).reverse)
    rwa [List.reverse_reverse] at this
  rcases hpre with ⟨tail, heq⟩
  rcases hr : ((s.dropWhile isWS).reverse.dropWhile isWS).reverse with _ | ⟨b, rest⟩
  · rw [hr] at h; simp at h
  · rw [hr] at h heq
    simp only [List.head?_cons, Option.some.injEq] at h
    have hhead : (s.dropWhile isWS).head? = some b := by
      rw [← heq]; rfl
    rw [← h]
    exact head?_dropWhile_not hhead

/-- The last character of a trimmed string is never whitespace. -/
theorem getLast?_trim_not_ws {s : Str} {c : Char} (h : (trim s).getLast? = some c) :
    isWS c = false := by
  rw [trim, dropEndWS, List.getLast?_reverse] at h
  exact head?_dropWhile_not h

/-- `trim` is idempotent. -/
theorem trim_trim (s : Str) : trim (trim s) = trim s := by
  have hstep : (trim s).dropWhile isWS = trim s :=
    dropWhile_eq_self_of_head fun c hc => head?_trim_not_ws hc
  have hrev : (trim s).reverse.dropWhile isWS = (trim s).reverse := by
    refine dropWhile_eq_self_of_head fun c hc => ?_
    rw [List.head?_reverse] at hc
    exact getLast?_trim_not_ws hc
  rw [trim, hstep, dropEndWS, hrev, List.reverse_reverse]

/-! ### Key-value mapping lemmas (JS object semantics) -/

/-- Reading back the key just assigned. -/
theorem lookupKV_setKV_self (m : List (Str × Str)) (k v : Str) :
    lookupKV (setKV m k v) k = some v := by
  induction m with
  | nil => simp [setKV, lookupKV]
  | cons kv rest ih =>
    by_cases hk : kv.1 = k
    · simp [setKV, hk, lookupKV]
    · simp [setKV, hk, lookupKV, ih]

/-- Assigning one key leaves every other key's value unchanged. -/
theorem lookupKV_setKV_other (m : List (Str × Str)) (k v k' : Str) (hne : k' ≠ k) :
    lookupKV (setKV m k v) k' = lookupKV m k' := by
  induction m with
  | nil =>
    simp only [setKV, lookupKV]
    rw [if_neg fun h => hne h.symm]
  | cons kv rest ih =>
    by_cases hk : kv.1 = k
    · simp only [setKV, if_pos hk, lookupKV]
      rw [if_neg (fun h => hne h.symm), if_neg (hk ▸ fun h => hne h.symm)]
    · simp only [setKV, if_neg hk, lookupKV, ih]

/-- A key present in the assigned mapping was present before or is the
assigned key. -/
theorem mem_keys_setKV {m : List (Str × Str)} {k v a : Str}
    (h : a ∈ (setKV m k v).map Prod.fst) : a ∈ m.map Prod.fst ∨ a = k := by
  induction m with
  | nil => simpa [setKV] using h
  | cons kv rest ih =>
    by_cases hk : kv.1 = k
    · simp only [setKV, if_pos hk, List.map_cons, List.mem_cons] at h ⊢
      rcases h with h | h
      · exact Or.inr h
      · exact Or.inl (Or.inr h)
    · simp only [setKV, if_neg hk, List.map_cons, List.mem_cons] at h ⊢
      rcases h with h | h
      · exact Or.inl (Or.inl h)
      · rcases ih h with h' | h'
        · exact Or.inl (Or.inr h')
        · exact Or.inr h'

/-- JS object assignment keeps keys duplicate-free. -/
theorem nodup_keys_setKV {m : List (Str × Str)} (k v : Str)
    (h : (m.map Prod.fst).Nodup) : ((setKV m k v).map Prod.fst).Nodup := by
  induction m with
  | nil => simp [setKV]
  | cons kv rest ih =>
    simp only [List.map_cons, List.nodup_cons] at h
    by_cases hk : kv.1 = k
    · simp only [setKV, if_pos hk, List.map_cons, List.nodup_cons]
      exact ⟨hk ▸ h.1, h.2⟩
    · simp only [setKV, if_neg hk, List.map_cons, List.nodup_cons]
      refine ⟨fun hmem => ?_, ih h.2⟩
      rcases mem_keys_setKV hmem with h' | h'
      · exact h.1 h'
      · exact hk h'

/-- A key absent from the mapping is counted zero times. -/
theorem countKey_eq_zero_of_not_mem {m : List (Str × Str)} {k : Str}
    (h : k ∉ m.map Prod.fst) : countKey m k = 0 := by
  induction m with
  | nil => rfl
  | cons kv rest ih =>
    simp only [List.map_cons, List.mem_cons, not_or] at h
    have : ¬ (kv.1 = k) := fun he => h.1 he.symm
    simp only [countKey, List.filter_cons]
    rw [if_neg (by simpa using this)]
    exact ih h.2

/-- With duplicate-free keys, a key that resolves to a value occurs exactly
once in the mapping. -/
theorem countKey_eq_one {m : List (Str × Str)} {k v : Str}
    (hnd : (m.map Prod.fst).Nodup) (hl : lookupKV m k = some v) :
    countKey m k = 1 := by
  induction m with
  | nil => simp [lookupKV] at hl
  | cons kv rest ih =>
    simp only [List.map_cons, List.nodup_cons] at hnd
    by_cases hk : kv.1 = k
    · simp only [countKey, List.filter_cons]
      rw [if_pos (by simpa using hk)]
      have : countKey rest k = 0 := countKey_eq_zero_of_not_mem (hk ▸ hnd.1)
      simp only [List.length_cons]
      rw [show (rest.filter fun p => decide (p.1 = k)).length = countKey rest k from rfl, this]
    · simp only [lookupKV, if_neg hk] at hl
      simp only [countKey, List.filter_cons]
      rw [if_neg (by simpa using hk)]
      exact ih hnd.2 hl

/-! ### Segmentation loop lemmas -/

/-- The loop over concatenated line blocks runs the blocks in sequence. -/
theorem runLines_append (a b : List Str) (st : SegState) :
    runLines (a ++ b) st = runLines b (runLines a st) := by
  simp [runLines, List.foldl_append]

/-- Processing a non-heading line appends it to the active section's
accumulator, or drops it when no section is active. -/
theorem stepLine_nonheading {line : Str} (st : SegState) (h : findSection line = none) :
    stepLine st line =
      if st.currentSection = [] then st
      else ⟨st.sections, st.currentSection, st.currentContent ++ [line]⟩ := by
  unfold stepLine
  rw [h]

/-- With no active section, non-heading lines leave the state untouched
(they are silently dropped). -/
theorem runLines_inactive (lines : List Str) (secs : List (Str × Str)) (acc : List Str)
    (h : ∀ l ∈ lines, findSection l = none) :
    runLines lines ⟨secs, [], acc⟩ = ⟨secs, [], acc⟩ := by
  induction lines with
  | nil => rfl
  | cons l ls ih =>
    have hl : findSection l = none := h l (by simp)
    have hstep : stepLine ⟨secs, [], acc⟩ l = ⟨secs, [], acc⟩ := by
      rw [stepLine_nonheading _ hl]
      rfl
    show runLines ls (stepLine ⟨secs, [], acc⟩ l) = _
    rw [hstep]
    exact ih fun l' hm => h l' (by simp [hm])

/-- With an active section, non-heading lines are appended to the
accumulator in order and nothing else changes. -/
theorem runLines_active (lines : List Str) (secs : List (Str × Str)) (cur : Str)
    (acc : List Str) (hcur : cur ≠ [])
    (h : ∀ l ∈ lines, findSection l = none) :
    runLines lines ⟨secs, cur, acc⟩ = ⟨secs, cur, acc ++ lines⟩ := by
  induction lines generalizing acc with
  | nil => simp [runLines]
  | cons l ls ih =>
    have hl : findSection l = none := h l (by simp)
    have hstep : stepLine ⟨secs, cur, acc⟩ l = ⟨secs, cur, acc ++ [l]⟩ := by
      rw [stepLine_nonheading _ hl]
      simp [hcur]
    show runLines ls (stepLine ⟨secs, cur, acc⟩ l) = _
    rw [hstep, ih (acc ++ [l]) (fun l' hm => h l' (by simp [hm]))]
    simp

/-- Processing a heading line flushes the active section (if any) and makes
the matched title current with an empty accumulator. -/
theorem stepLine_heading {line t : Str} (st : SegState) (h : findSection line = some t) :
    stepLine st line =
      ⟨if st.currentSection = [] then st.sections
        else setKV st.sections st.currentSection (trim (joinWith (str "\n") st.currentContent)),
       t, []⟩ := by
  unfold stepLine
  rw [h]

/-- As long as no processed line is matched to title `t` and `t` is not the
active section, the binding of `t` never changes and `t` never becomes
active. -/
theorem runLines_avoid (t : Str) (lines : List Str)
    (h : ∀ l ∈ lines, findSection l ≠ some t) :
    ∀ st : SegState, st.currentSection ≠ t →
      lookupKV (runLines lines st).sections t = lookupKV st.sections t ∧
      (runLines lines st).currentSection ≠ t := by
  induction lines with
  | nil => exact fun st hcur => ⟨rfl, hcur⟩
  | cons l ls ih =>
    intro st hcur
    have hl : findSection l ≠ some t := h l (by simp)
    have hrec := ih (fun l' hm => h l' (by simp [hm]))
    show lookupKV (runLines ls (stepLine st l)).sections t = _ ∧
      (runLines ls (stepLine st l)).currentSection ≠ t
    rcases hfs : findSection l with _ | t'
    · have hstep : (stepLine st l).sections = st.sections ∧
          (stepLine st l).currentSection = st.currentSection := by
        rw [stepLine_nonheading st hfs]
        by_cases hc : st.currentSection = []
        · rw [if_pos hc]; exact ⟨rfl, rfl⟩
        · rw [if_neg hc]; exact ⟨rfl, rfl⟩
      obtain ⟨h1, h2⟩ := hrec (stepLine st l) (hstep.2 ▸ hcur)
      rw [h1, hstep.1]
      exact ⟨rfl, h2⟩
    · have ht' : t' ≠ t := fun he => hl (he ▸ hfs)
      have hstep := stepLine_heading st hfs
      obtain ⟨h1, h2⟩ := hrec (stepLine st l) (by rw [hstep]; exact ht')
      refine ⟨?_, h2⟩
      rw [h1]
      simp only [hstep]
      by_cases hc : st.currentSection = []
      · rw [if_pos hc]
      · rw [if_neg hc]
        exact lookupKV_setKV_other _ _ _ _ (fun he => hcur he.symm)

/-- The final flush never touches the binding of an inactive title. -/
theorem finalize_lookup_avoid {t : Str} (st : SegState) (h : st.currentSection ≠ t) :
    lookupKV (finalize st) t = lookupKV st.sections t := by
  unfold finalize
  by_cases hc : st.currentSection = []
  · rw [if_pos hc]
  · rw [if_neg hc]
    exact lookupKV_setKV_other _ _ _ _ (fun he => h he.symm)

/-- The segmentation loop keeps the keys of the mapping duplicate-free. -/
theorem nodup_keys_runLines (lines : List Str) :
    ∀ st : SegState, (st.sections.map Prod.fst).Nodup →
      ((runLines lines st).sections.map Prod.fst).Nodup := by
  induction lines with
  | nil => exact fun st h => h
  | cons l ls ih =>
    intro st h
    show ((runLines ls (stepLine st l)).sections.map Prod.fst).Nodup
    refine ih _ ?_
    rcases hfs : findSection l with _ | t'
    · simp only [stepLine_nonheading st hfs]
      by_cases hc : st.currentSection = []
      · rw [if_pos hc]; exact h
      · rw [if_neg hc]; exact h
    · simp only [stepLine_heading st hfs]
      by_cases hc : st.currentSection = []
      · rw [if_pos hc]; exact h
      · rw [if_neg hc]; exact nodup_keys_setKV _ _ h

/-- The full segmenter output has duplicate-free keys. -/
theorem nodup_keys_segLines (lines : List Str) :
    ((segLines lines).map Prod.fst).Nodup := by
  unfold segLines finalize
  have h := nodup_keys_runLines lines ⟨[], [], []⟩ (by simp)
  by_cases hc : (runLines lines ⟨[], [], []⟩).currentSection = []
  · rw [if_pos hc]; exact h
  · rw [if_neg hc]; exact nodup_keys_setKV _ _ h

/-! ### Claims -/

/-- C1: a line is treated as a heading by the Paper Segmenter if and only
if some canonical title of the fixed 8-title list occurs in it as a
case-insensitive substring and the line's length is strictly below that
title's length plus 10; and any such line starts a new section (the current
section cursor becomes the matched title and the accumulator is reset),
regardless of how the line is formatted. -/
theorem C1_heading_heuristic (line : Str) (st : SegState) :
    ((findSection line).isSome ↔
      ∃ t ∈ PAPER_SECTIONS, lower t <:+: lower line ∧ line.length < t.length + 10) ∧
    (∀ t, findSection line = some t →
      (stepLine st line).currentSection = t ∧ (stepLine st line).currentContent = []) := by
  constructor
  · rw [findSection, List.find?_isSome]
    constructor
    · rintro ⟨t, ht, hp⟩
      rw [headingTest, Bool.and_eq_true, containsSub_iff, decide_eq_true_iff] at hp
      exact ⟨t, ht, hp⟩
    · rintro ⟨t, ht, h1, h2⟩
      refine ⟨t, ht, ?_⟩
      rw [headingTest, Bool.and_eq_true, containsSub_iff, decide_eq_true_iff]
      exact ⟨h1, h2⟩
  · intro t ht
    unfold stepLine
    rw [ht]
    exact ⟨rfl, rfl⟩

/-- Witness for C1 at a concrete heading line. -/
theorem C1_heading_heuristic_witness :
    (stepLine ⟨[], [], []⟩ (str "## Abstract")).currentSection = str "Abstract" ∧
    (stepLine ⟨[], [], []⟩ (str "## Abstract")).currentContent = [] :=
  (C1_heading_heuristic (str "## Abstract") ⟨[], [], []⟩).2 (str "Abstract") (by decide)

/-- C2: whenever the heading heuristic accepts a line for more than one
canonical title, the title selected is the first matching one in canonical
list order (the head of the filtered canonical list), independent of where
the titles occur inside the line. -/
theorem C2_tie_break (line : Str) :
    2 ≤ (PAPER_SECTIONS.filter (headingTest line)).length →
    findSection line = (PAPER_SECTIONS.filter (headingTest line)).head? := by
  intro _
  exact find?_eq_head?_filter (headingTest line) PAPER_SECTIONS

/-- Witness for C2: `"resultsabstract"` matches both `Results` and
`Abstract`; the segmenter picks `Abstract`, the first in canonical order,
although `results` appears first in the line. -/
theorem C2_tie_break_witness :
    findSection (str "resultsabstract") =
      (PAPER_SECTIONS.filter (headingTest (str "resultsabstract"))).head? :=
  C2_tie_break (str "resultsabstract") (by decide)

/-- C6: an input text none of whose lines passes the heading heuristic
segments to the empty mapping; more generally a block of non-heading lines
in front of the input contributes nothing to the result. -/
theorem C6_preamble_dropped (content : Str) (pre rest : List Str) :
    ((∀ l ∈ jsSplit1 '\n' content, findSection l = none) → segmentPaper content = []) ∧
    ((∀ l ∈ pre, findSection l = none) → segLines (pre ++ rest) = segLines rest) := by
  constructor
  · intro h
    unfold segmentPaper segLines
    rw [runLines_inactive _ _ _ h]
    rfl
  · intro h
    unfold segLines
    rw [runLines_append, runLines_inactive _ _ _ h]

/-- Witness for C6 on a concrete heading-free text and a concrete dropped
preamble line. -/
theorem C6_preamble_dropped_witness :
    segmentPaper (str "just text\nno headings in sight") = [] ∧
    segLines ([str "dropped preamble"] ++ [str "Abstract", str "body"]) =
      segLines [str "Abstract", str "body"] :=
  ⟨(C6_preamble_dropped (str "just text\nno headings in sight") [] []).1 (by decide),
   (C6_preamble_dropped (str "just text\nno headings in sight")
      [str "dropped preamble"] [str "Abstract", str "body"]).2 (by decide)⟩

/-- Every value ever stored by JS-object assignment stays `trim`-fixed if
the assigned value is. -/
theorem trimmed_setKV (m : List (Str × Str)) (k v : Str)
    (hm : ∀ p ∈ m, trim p.2 = p.2) (hv : trim v = v) :
    ∀ p ∈ setKV m k v, trim p.2 = p.2 := by
  induction m with
  | nil =>
    intro p hp
    simp only [setKV, List.mem_singleton] at hp
    subst hp
    exact hv
  | cons q rest ih =>
    obtain ⟨k0, v0⟩ := q
    intro p hp
    by_cases hk : k0 = k
    · simp only [setKV, if_pos hk] at hp
      rcases List.mem_cons.mp hp with heq | hmem
      · subst heq; exact hv
      · exact hm _ (List.mem_cons_of_mem _ hmem)
    · simp only [setKV, if_neg hk] at hp
      rcases List.mem_cons.mp hp with heq | hmem
      · subst heq; exact hm _ (List.mem_cons_self _ _)
      · exact ih (fun p' hp' => hm p' (List.mem_cons_of_mem _ hp')) p hmem

/-- One loop step keeps every stored section body `trim`-fixed. -/
theorem trimmed_stepLine (st : SegState) (line : Str)
    (h : ∀ p ∈ st.sections, trim p.2 = p.2) :
    ∀ p ∈ (stepLine st line).sections, trim p.2 = p.2 := by
  rcases hfs : findSection line with _ | t
  · simp only [stepLine_nonheading st hfs]
    by_cases hc : st.currentSection = []
    · rw [if_pos hc]; exact h
    · rw [if_neg hc]; exact h
  · simp only [stepLine_heading st hfs]
    by_cases hc : st.currentSection = []
    · rw [if_pos hc]; exact h
    · rw [if_neg hc]
      exact trimmed_setKV _ _ _ h (trim_trim _)

/-- The whole loop keeps every stored section body `trim`-fixed. -/
theorem trimmed_runLines (lines : List Str) :
    ∀ st : SegState, (∀ p ∈ st.sections, trim p.2 = p.2) →
      ∀ p ∈ (runLines lines st).sections, trim p.2 = p.2 := by
  induction lines with
  | nil => exact fun st h => h
  | cons l ls ih =>
    intro st h
    show ∀ p ∈ (runLines ls (stepLine st l)).sections, trim p.2 = p.2
    exact ih _ (trimmed_stepLine st l h)

/-- The final flush keeps every stored section body `trim`-fixed. -/
theorem trimmed_finalize (st : SegState)
    (h : ∀ p ∈ st.sections, trim p.2 = p.2) :
    ∀ p ∈ finalize st, trim p.2 = p.2 := by
  unfold finalize
  by_cases hc : st.currentSection = []
  · rw [if_pos hc]; exact h
  · rw [if_neg hc]; exact trimmed_setKV _ _ _ h (trim_trim _)

/-- C8: every section body stored by the Paper Segmenter is the accumulated
lines joined and trimmed, hence a fixed point of `trim`: it neither starts
nor ends with a whitespace character (spaces, tabs, or the blank lines
around headings). -/
theorem C8_bodies_trimmed (content : Str) (k v : Str)
    (hm : (k, v) ∈ segmentPaper content) :
    trim v = v ∧ (∀ c, v.head? = some c → isWS c = false) ∧
      (∀ c, v.getLast? = some c → isWS c = false) := by
  have hv : trim v = v := by
    have hall := trimmed_finalize (runLines (jsSplit1 '\n' content) ⟨[], [], []⟩)
      (trimmed_runLines _ _ (by intro p hp; simp at hp))
    exact hall (k, v) hm
  refine ⟨hv, fun c hc => ?_, fun c hc => ?_⟩
  · exact head?_trim_not_ws (by rw [hv]; exact hc)
  · exact getLast?_trim_not_ws (by rw [hv]; exact hc)

/-- Witness for C8: the body stored for `Abstract` in a text with
surrounding whitespace is already trimmed. -/
theorem C8_bodies_trimmed_witness : trim (str "hello") = str "hello" :=
  (C8_bodies_trimmed (str "Abstract\n  hello \n") (str "Abstract") (str "hello")
    (by decide)).1

/-- C5: when a canonical title's heading occurs for the last time at line
`hline` (followed by the non-heading block `ys` and then either nothing or
a block starting with another heading, with no further heading for `t`),
the result binds `t` exactly once, to the body accumulated after that last
occurrence — every earlier body stored under `t` is overwritten. -/
theorem C5_duplicate_heading (xs ys rest : List Str) (hline t : Str)
    (hh : findSection hline = some t)
    (hys : ∀ l ∈ ys, findSection l = none)
    (hrest : ∀ l ∈ rest, findSection l ≠ some t)
    (hstart : rest = [] ∨ ∃ r rs, rest = r :: rs ∧ (findSection r).isSome) :
    lookupKV (segLines (xs ++ hline :: (ys ++ rest))) t
        = some (trim (joinWith (str "\n") ys)) ∧
    countKey (segLines (xs ++ hline :: (ys ++ rest))) t = 1 := by
  have hmem : t ∈ PAPER_SECTIONS := List.mem_of_find?_eq_some hh
  have tne : t ≠ [] := fun he => absurd (he ▸ hmem) (by decide)
  have hsplit : xs ++ hline :: (ys ++ rest) = xs ++ ([hline] ++ (ys ++ rest)) := by simp
  set st0 := runLines xs ⟨[], [], []⟩ with hst0
  have hrun1 : runLines (xs ++ hline :: (ys ++ rest)) ⟨[], [], []⟩
      = runLines rest (runLines ys (stepLine st0 hline)) := by
    rw [hsplit, runLines_append, runLines_append, runLines_append]
    rfl
  set secs1 := if st0.currentSection = [] then st0.sections
    else setKV st0.sections st0.currentSection (trim (joinWith (str "\n") st0.currentContent))
    with hsecs1
  have hrun2 : runLines ys (stepLine st0 hline) = ⟨secs1, t, ys⟩ := by
    rw [stepLine_heading st0 hh]
    have := runLines_active ys secs1 t [] tne hys
    simpa using this
  have hfin : lookupKV (segLines (xs ++ hline :: (ys ++ rest))) t
      = some (trim (joinWith (str "\n") ys)) := by
    unfold segLines
    rw [hrun1, hrun2]
    rcases hstart with hrest0 | ⟨r, rs, hrr, hrsome⟩
    · subst hrest0
      show lookupKV (finalize ⟨secs1, t, ys⟩) t = _
      simp only [finalize]
      rw [if_neg tne]
      exact lookupKV_setKV_self _ _ _
    · subst hrr
      obtain ⟨t', hr'⟩ := Option.isSome_iff_exists.mp hrsome
      have ht' : t' ≠ t := fun he => hrest r (by simp) (he ▸ hr')
      show lookupKV (finalize (runLines rs (stepLine ⟨secs1, t, ys⟩ r))) t = _
      have hstep2 : stepLine ⟨secs1, t, ys⟩ r
          = ⟨setKV secs1 t (trim (joinWith (str "\n") ys)), t', []⟩ := by
        rw [stepLine_heading _ hr']
        simp [tne]
      rw [hstep2]
      have havoid := runLines_avoid t rs (fun l hm => hrest l (by simp [hm]))
        ⟨setKV secs1 t (trim (joinWith (str "\n") ys)), t', []⟩ ht'
      rw [finalize_lookup_avoid _ havoid.2, havoid.1]
      exact lookupKV_setKV_self _ _ _
  exact ⟨hfin, countKey_eq_one (nodup_keys_segLines _) hfin⟩

/-- Witness for C5: the heading `## Abstract` occurs twice; the stored body
is the one accumulated after the second occurrence, and the key occurs
once. -/
theorem C5_duplicate_heading_witness :
    lookupKV (segLines ([str "## Abstract", str "first body"] ++ str "## Abstract" ::
        ([str "second body"] ++ [str "## Introduction", str "intro"]))) (str "Abstract")
      = some (trim (joinWith (str "\n") [str "second body"])) ∧
    countKey (segLines ([str "## Abstract", str "first body"] ++ str "## Abstract" ::
        ([str "second body"] ++ [str "## Introduction", str "intro"]))) (str "Abstract") = 1 :=
  C5_duplicate_heading [str "## Abstract", str "first body"] [str "second body"]
    [str "## Introduction", str "intro"] (str "## Abstract") (str "Abstract")
    (by decide) (by decide) (by decide)
    (Or.inr ⟨str "## Introduction", [str "intro"], rfl, by decide⟩)

/-- C4: a `/generate-paper` request without a `topic` is answered with
HTTP 400 carrying an error message and triggers no outbound provider call;
an outbound call can only happen when `topic` is present. -/
theorem C4_generate_paper_validation (oracle : Provider) (topic : Option Str) :
    generatePaper none oracle =
      (⟨400, RespBody.errorBody (str "Topic is required")⟩, []) ∧
    ((generatePaper topic oracle).2 ≠ [] → ∃ s, topic = some s) := by
  refine ⟨rfl, fun hcalls => ?_⟩
  cases topic with
  | none => exact absurd rfl hcalls
  | some s => exact ⟨s, rfl⟩

/-- Witness for C4: a request with a topic makes an outbound call, so the
only-if direction applies to it. -/
theorem C4_generate_paper_validation_witness : ∃ s, some (str "ai") = some s :=
  (C4_generate_paper_validation (fun _ => str "output") (some (str "ai"))).2 (by decide)

/-- C7: with truthy content (`prompt || text`) and truthy `aspect`, the
improve-writing endpoint returns HTTP 200 whose `changes` field is exactly
the one-element list `[aspect]`; when both `prompt` and `text` are absent,
or `aspect` is absent, it returns HTTP 400. -/
theorem C7_improve_writing_contract (p t : Option Str) (a : Str) (a' : Option Str)
    (ctx : Option ImproveCtx) (oracle : Provider) :
    (jsTruthy (jsOr p t) = true → a ≠ [] →
      (improveWriting p t (some a) ctx oracle).1.status = 200 ∧
      changesOf (improveWriting p t (some a) ctx oracle).1.body = some [a]) ∧
    (improveWriting none none a' ctx oracle).1.status = 400 ∧
    (improveWriting p t none ctx oracle).1.status = 400 := by
  refine ⟨fun hc ha => ?_, rfl, ?_⟩
  · have ha' : jsTruthy (some a) = true := by
      simp [jsTruthy, List.isEmpty_iff, ha]
    simp only [improveWriting, hc, ha']
    exact ⟨rfl, rfl⟩
  · simp only [improveWriting]
    cases hx : jsTruthy (jsOr p t) with
    | false => rfl
    | true => rfl

/-- Witness for C7 at the spec's example `{ text: "x", aspect: "clarity" }`
with no context. -/
theorem C7_improve_writing_contract_witness :
    (improveWriting none (some (str "x")) (some (str "clarity")) none
        (fun _ => str "improved x")).1.status = 200 ∧
    changesOf (improveWriting none (some (str "x")) (some (str "clarity")) none
        (fun _ => str "improved x")).1.body = some [str "clarity"] :=
  (C7_improve_writing_contract none (some (str "x")) (str "clarity") none none
    (fun _ => str "improved x")).1 (by decide) (by decide)

/-- C9: empty strings behave exactly like absent fields under the
falsiness-based validation: `topic: ""` on `/generate-paper`, and an empty
chosen content (`prompt || text`) or empty `aspect` on
`/api/ai/improve-writing`, are all rejected with HTTP 400 just as if the
field were missing. -/
theorem C9_empty_is_missing (oracle : Provider) (p t a : Option Str)
    (ctx : Option ImproveCtx) :
    generatePaper (some []) oracle = generatePaper none oracle ∧
    (generatePaper (some []) oracle).1.status = 400 ∧
    (jsOr p t = some [] →
      improveWriting p t a ctx oracle = improveWriting none none a ctx oracle ∧
      (improveWriting p t a ctx oracle).1.status = 400) ∧
    improveWriting p t (some []) ctx oracle = improveWriting p t none ctx oracle ∧
    (improveWriting p t (some []) ctx oracle).1.status = 400 := by
  refine ⟨rfl, rfl, fun hc => ?_, ?_, ?_⟩
  · simp only [improveWriting, hc]
    exact ⟨rfl, rfl⟩
  · simp only [improveWriting]
    cases hx : jsTruthy (jsOr p t) with
    | false => rfl
    | true => rfl
  · simp only [improveWriting]
    cases hx : jsTruthy (jsOr p t) with
    | false => rfl
    | true => rfl

/-- Witness for C9 with an empty-string `text` as the chosen content. -/
theorem C9_empty_is_missing_witness :
    improveWriting none (some []) (some (str "clarity")) none (fun _ => str "out")
      = improveWriting none none (some (str "clarity")) none (fun _ => str "out") ∧
    (improveWriting none (some []) (some (str "clarity")) none
        (fun _ => str "out")).1.status = 400 :=
  (C9_empty_is_missing (fun _ => str "out") none (some []) (some (str "clarity")) none).2.2.1
    rfl

/-- C10: when `prompt` is provided non-empty, the content the handler sends
to the provider is `prompt` — the single outbound call carries the improve
instruction built from `prompt` — and the response and calls are completely
independent of the `text` field. -/
theorem C10_prompt_precedence (p : Str) (t t' : Option Str) (a : Str)
    (ctx : Option ImproveCtx) (oracle : Provider)
    (hp : p ≠ []) (ha : a ≠ []) :
    (improveWriting (some p) t (some a) ctx oracle).2 =
      [[⟨Role.system, improveSystemPrompt ctx⟩, ⟨Role.user, improveUserMsg p⟩]] ∧
    improveWriting (some p) t (some a) ctx oracle
      = improveWriting (some p) t' (some a) ctx oracle := by
  have hptruthy : jsTruthy (some p) = true := by simp [jsTruthy, List.isEmpty_iff, hp]
  have hatruthy : jsTruthy (some a) = true := by simp [jsTruthy, List.isEmpty_iff, ha]
  have hor : ∀ x : Option Str, jsOr (some p) x = some p := by
    intro x
    simp [jsOr, hptruthy]
  constructor
  · simp only [improveWriting, hor, hptruthy, hatruthy]
    rfl
  · simp only [improveWriting, hor]

/-- Witness for C10 with both `prompt` and `text` provided. -/
theorem C10_prompt_precedence_witness :
    (improveWriting (some (str "x")) (some (str "ignored")) (some (str "clarity")) none
        (fun _ => str "better")).2 =
      [[⟨Role.system, improveSystemPrompt none⟩, ⟨Role.user, improveUserMsg (str "x")⟩]] ∧
    improveWriting (some (str "x")) (some (str "ignored")) (some (str "clarity")) none
        (fun _ => str "better")
      = improveWriting (some (str "x")) none (some (str "clarity")) none
        (fun _ => str "better") :=
  C10_prompt_precedence (str "x") (some (str "ignored")) none (str "clarity") none
    (fun _ => str "better") (by decide) (by decide)

/-- C3 counterexample: on the line `Smith, J. (2020). Deep learning methods`
(no period after the title) the delimiter `.` following `).` is absent, so
the claim as stated requires an empty title, but the code extracts the whole
remainder `Deep learning methods`. -/
theorem C3_citation_title_counterexample :
    titleOf (str "Smith, J. (2020). Deep learning methods")
      = str "Deep learning methods" ∧
    claimTitle (str "Smith, J. (2020). Deep learning methods") = [] ∧
    titleOf (str "Smith, J. (2020). Deep learning methods")
      ≠ claimTitle (str "Smith, J. (2020). Deep learning methods") := by
  decide

/-- C3 (amended): for every line, the extracted `year` is the digits of the
first parenthesized 4-digit sequence (empty if none), `authors` is the text
before the first `(` trimmed (the whole trimmed line when `(` is absent),
and `title` is the segment strictly between the first `).` occurrence and
the next `).` occurrence (to the end of the line when there is no second
one), truncated before the first `.` inside that segment (the whole segment
when it has none), trimmed — empty only when `).` is absent; the spec's
example line yields year `2020`, authors `Smith, J.`, title
`Deep learning methods`. -/
theorem C3_citation_fields (line : Str) :
    ((parseCitation line).year = claimYear line ∧
     (parseCitation line).authors = claimAuthors line ∧
     (parseCitation line).title = claimTitleAmended line) ∧
    parseCitation (str "Smith, J. (2020). Deep learning methods. Journal X.") =
      { text := str "Smith, J. (2020). Deep learning methods. Journal X.",
        type := str "article", year := str "2020", authors := str "Smith, J.",
        title := str "Deep learning methods" } :=
  ⟨⟨yearOf_eq line, authorsOf_eq line, titleOf_eq line⟩, by decide⟩
